import Mathlib

set_option maxRecDepth 100000

/-!
Verification of the BuildReport reordering tool
(`private_tools/reorder_buildreport.py`).

Text is modelled as `List Char`.  Python dicts are modelled as insertion
ordered association lists, Python sets as lists with membership.  Fallible
parsing returns `Except`.
-/

/-- ASCII whitespace, modelling the characters matched by the `\s` class
for the inputs at hand. -/
def isSpaceChar (c : Char) : Bool :=
  c == ' ' || c == '\t' || c == '\n' || c == '\r' || c == '\x0b' || c == '\x0c'

/-- Test whether `p` is an initial segment of `l`. -/
def startsWith : List Char → List Char → Bool
  | [], _ => true
  | _ :: _, [] => false
  | p :: ps, c :: cs => p == c && startsWith ps cs

/-- Find the first occurrence of `marker` in the text; return the part
before it and the part after it.  `none` when the marker does not occur.
This models both `str.split(marker, 1)` (two pieces case) and the Python
`marker in text` test (via `Option.isSome`), and `re.search` of an
escaped literal. -/
def splitOnce (marker : List Char) : List Char → Option (List Char × List Char)
  | [] => if marker.isEmpty then some ([], []) else none
  | c :: cs =>
    if startsWith marker (c :: cs) then some ([], (c :: cs).drop marker.length)
    else
      match splitOnce marker cs with
      | some (pre, post) => some (c :: pre, post)
      | none => none

/-- Python substring test `marker in text`. -/
def containsSub (text marker : List Char) : Bool :=
  (splitOnce marker text).isSome

/-- Python `str.rstrip('\n')`. -/
def rstripNewlines (l : List Char) : List Char :=
  (l.reverse.dropWhile (fun c => c == '\n')).reverse

/-- Split off the first line: content up to the first newline and the rest
after that newline; `none` when the text has no newline at all. -/
def takeLine : List Char → Option (List Char × List Char)
  | [] => none
  | c :: cs =>
    if c == '\n' then some ([], cs)
    else
      match takeLine cs with
      | some (l, r) => some (c :: l, r)
      | none => none

/-- Scan up to the first closing brace: the characters before it and the
rest after it; `none` when no closing brace occurs. -/
def takeUntilRBrace : List Char → Option (List Char × List Char)
  | [] => none
  | c :: cs =>
    if c == '}' then some ([], cs)
    else
      match takeUntilRBrace cs with
      | some (b, r) => some (c :: b, r)
      | none => none

/-- Constant `BuildReport.MODULE_SEPARATOR`: `>`, 198 `=` signs, `<`. -/
def MODULE_SEPARATOR : List Char :=
  '>' :: (List.replicate 198 '=' ++ ['<'])

/-- Constant `BuildReport.MODULE_HEADER`. -/
def MODULE_HEADER : List Char := "Module Summary".data

/-- The compiled delimiter pattern `MODULE_SEPARATOR + "\n" + MODULE_HEADER`
(the regex is built from escaped literals, hence a plain substring). -/
def MODULE_PATTERN : List Char := MODULE_SEPARATOR ++ '\n' :: MODULE_HEADER

/-- Constant `lib_section_marker`: a `>`-ruled line, the `Library` title and its
underline. -/
def LIB_MARKER : List Char :=
  '>' :: (List.replicate 198 '-' ++ ['<', '\n'] ++ "Library".data
    ++ '\n' :: List.replicate 200 '-')

/-- Constant `lib_section_end`: the closing rule of a library section. -/
def LIB_END : List Char :=
  '<' :: (List.replicate 198 '-' ++ ['>'])

/-- The literal prefix of the module-name regex `Module Name:\s+(\S+)`. -/
def MODULE_NAME_TAG : List Char := "Module Name:".data

/-- After the literal `Module Name:` tag, match `\s+(\S+)`: at least one
whitespace character, then the following maximal non-whitespace token. -/
def matchNameToken (cs : List Char) : Option (List Char) :=
  let sp := cs.takeWhile isSpaceChar
  if sp.isEmpty then none
  else
    let tok := (cs.drop sp.length).takeWhile (fun c => !(isSpaceChar c))
    if tok.isEmpty then none else some tok

/-- Model of `BuildReport._extract_module_name`: `re.search(r'Module Name:\s+(\S+)')`
over the block, i.e. the first position whose literal tag is followed by a
successful `\s+(\S+)` match; `None` when there is no such position. -/
def extractModuleName : List Char → Option (List Char)
  | [] => none
  | c :: cs =>
    if startsWith MODULE_NAME_TAG (c :: cs) then
      match matchNameToken ((c :: cs).drop MODULE_NAME_TAG.length) with
      | some tok => some tok
      | none => extractModuleName cs
    else extractModuleName cs

/-- Little-endian decimal digits of `n` via a fuel argument (`fuel = n`
is always sufficient, since `n / 10 < n` for positive `n`). -/
def decDigitsAux : Nat → Nat → List Nat
  | 0, _ => []
  | _ + 1, 0 => []
  | fuel + 1, n + 1 => (n + 1) % 10 :: decDigitsAux fuel ((n + 1) / 10)

/-- Little-endian decimal digits of `n` (empty for `0`). -/
def decDigits (n : Nat) : List Nat := decDigitsAux n n

/-- The character of a single decimal digit. -/
def digitCharOf (d : Nat) : Char := Char.ofNat (48 + d)

/-- Decimal rendering of a natural number, modelling Python `str(n)` as it
appears inside the f-string `f"{name}#{count}"`. -/
def decRepr (n : Nat) : String :=
  if n = 0 then "0" else ⟨((decDigits n).reverse.map digitCharOf)⟩

/-- A parsed build report: header text, the `modules` dict (an insertion
ordered association list from unique key to raw block text) and the
`module_order` list. -/
structure Report where
  header : List Char
  modules : List (String × List Char)
  module_order : List String
deriving Repr, DecidableEq

/-- Python dict assignment `d[k] = v`: replace the value in place if the
key is present, append the new pair otherwise. -/
def dictInsert (k : String) (v : List Char) : List (String × List Char) → List (String × List Char)
  | [] => [(k, v)]
  | (k', v') :: rest =>
    if k' == k then (k', v) :: rest else (k', v') :: dictInsert k v rest

/-- Python dict lookup `d.get(k)`. -/
def dictLookup (m : List (String × List Char)) (k : String) : Option (List Char) :=
  match m with
  | [] => none
  | (k', v) :: rest => if k' == k then some v else dictLookup rest k

/-- Python `k in d` for the modules dict. -/
def memModules (r : Report) (k : String) : Bool :=
  (dictLookup r.modules k).isSome

/-- The unique key assigned to the next occurrence of `name` given the
per-name occurrence counts so far (`0` meaning the name is unseen): the
bare name on first occurrence, `name#2`, `name#3`, … afterwards. -/
def dedupKey (counts : String → Nat) (name : String) : String :=
  if counts name = 0 then name else name ++ "#" ++ decRepr (counts name + 1)

/-- Update the per-name occurrence counter after seeing `name` once more. -/
def bumpCount (counts : String → Nat) (name : String) : String → Nat :=
  fun x => if x = name then counts name + 1 else counts x

/-- The module-block loop of `BuildReport._parse` (lines 60–81): for each
block, extract its name; unnamed blocks are skipped; named blocks are
given a duplicate-suffixed unique key, stored in the dict and appended to
the order list. -/
def processBlocks (counts : String → Nat) (modules : List (String × List Char))
    (order : List String) : List (List Char) → List (String × List Char) × List String
  | [] => (modules, order)
  | b :: rest =>
    match extractModuleName b with
    | none => processBlocks counts modules order rest
    | some nm =>
      let name : String := ⟨nm⟩
      processBlocks (bumpCount counts name) (dictInsert (dedupKey counts name) b modules)
        (order ++ [dedupKey counts name]) rest

/-- The key sequence produced by the duplicate-suffixing loop for a given
sequence of extracted module names. -/
def assignKeysAux (counts : String → Nat) : List String → List String
  | [] => []
  | n :: rest => dedupKey counts n :: assignKeysAux (bumpCount counts n) rest

/-- Keys assigned to a sequence of module names, starting from empty
counters. -/
def assignKeys (names : List String) : List String :=
  assignKeysAux (fun _ => 0) names

/-- Model of `re.finditer` of the (escaped, hence literal) delimiter pattern:
the start offsets of its non-overlapping occurrences, scanning left to
right.  Fuel-driven; `fuel = text.length` always suffices because every
step consumes at least one character. -/
def findStartsAux (pat : List Char) : Nat → Nat → List Char → List Nat
  | 0, _, _ => []
  | fuel + 1, pos, text =>
    match text with
    | [] => []
    | _ :: rest =>
      if startsWith pat text then
        pos :: findStartsAux pat fuel (pos + pat.length) (text.drop pat.length)
      else
        findStartsAux pat fuel (pos + 1) rest

/-- All non-overlapping occurrence offsets of `pat` in `text`. -/
def findStarts (pat text : List Char) : List Nat :=
  findStartsAux pat text.length 0 text

/-- Slice a text into blocks: each block runs from its start offset to the
next start offset (or to the end of the text for the last block). -/
def sliceBlocks (text : List Char) : List Nat → List (List Char)
  | [] => []
  | [p] => [text.drop p]
  | p :: q :: rest => ((text.drop p).take (q - p)) :: sliceBlocks text (q :: rest)

/-- The module section of a report text: everything from the first
delimiter occurrence on (meaningful only when the delimiter occurs). -/
def moduleSection (content : List Char) : List Char :=
  match splitOnce MODULE_PATTERN content with
  | none => []
  | some (_, rest) => MODULE_PATTERN ++ rest

/-- The raw module blocks of a report text. -/
def moduleBlocks (content : List Char) : List (List Char) :=
  let s := moduleSection content
  sliceBlocks s (findStarts MODULE_PATTERN s)

/-- Parse failures of `BuildReport._parse`: the only error the parser
raises is the `ValueError("No modules found …")` of line 44. -/
inductive ParseError where
  | noModulesFound
deriving Repr, DecidableEq

/-- Model of `BuildReport._parse`: find the first delimiter occurrence (error when
absent), strip the header, slice the module section into blocks and run
the per-block naming loop. -/
def parse (content : List Char) : Except ParseError Report :=
  match splitOnce MODULE_PATTERN content with
  | none => .error .noModulesFound
  | some (pre, rest) =>
    let s := MODULE_PATTERN ++ rest
    let blocks := sliceBlocks s (findStarts MODULE_PATTERN s)
    .ok ⟨rstripNewlines pre,
         (processBlocks (fun _ => 0) [] [] blocks).1,
         (processBlocks (fun _ => 0) [] [] blocks).2⟩

/-- Model of `BuildReport.reorder_modules`: first pass appends the reference keys
that name an existing module while recording them in the `used_modules`
set; second pass appends the target keys not recorded as used. -/
def reorder_modules (reference_order : List String) (r : Report) : List String :=
  let p1 := reference_order.foldl
    (fun (acc : List String × List String) k =>
      if memModules r k then (acc.1 ++ [k], k :: acc.2) else acc)
    ([], [])
  r.module_order.foldl
    (fun acc k => if k ∈ p1.2 then acc else acc ++ [k]) p1.1

/-- A library record as built by the sub-parser inside
`_reorder_libraries_in_module` / `get_library_count`. -/
structure LibRec where
  path : List Char
  normalized_path : List Char
  name : Option (List Char)
  info : List Char
  full : List Char
deriving Repr, DecidableEq

/-- Python `lib_path.replace('\\', '/').lower()`. -/
def normalizePath (p : List Char) : List Char :=
  (p.map (fun c => if c == '\\' then '/' else c)).map Char.toLower

/-- Python `str.strip()` restricted to ASCII whitespace. -/
def stripSpaces (l : List Char) : List Char :=
  ((l.dropWhile isSpaceChar).reverse.dropWhile isSpaceChar).reverse

/-- The scan behind `re.search(r'\{([^:]+):', lib_info)`: at each opening
brace in turn, try to read a non-empty colon-free group followed by a
colon. -/
def extractLibraryNameAux : List Char → Option (List Char)
  | [] => none
  | c :: cs =>
    if c == '{' then
      let tok := cs.takeWhile (fun d => !(d == ':'))
      if tok.isEmpty || (cs.drop tok.length).isEmpty then extractLibraryNameAux cs
      else some tok
    else extractLibraryNameAux cs

/-- Model of `BuildReport._extract_library_name`. -/
def extractLibraryName (info : List Char) : Option (List Char) :=
  (extractLibraryNameAux info).map stripSpaces

/-- Does a line (no embedded newline) match `[^\n]+\.inf`, i.e. end in
`.inf` with at least one character before it? -/
def isInfLine (l : List Char) : Bool :=
  match l.reverse with
  | 'f' :: 'n' :: 'i' :: '.' :: _ :: _ => true
  | _ => false

/-- One attempt of the library-record pattern
`^([^\n]+\.inf)\n(\{[^}]+\})` at a line-start position: the whole line
must end in `.inf`, the next character must open a brace, and the first
closing brace must arrive with at least one character in between.
Returns the two groups and the rest of the text after the match. -/
def matchLibAt (cs : List Char) : Option (List Char × List Char × List Char) :=
  match takeLine cs with
  | none => none
  | some (line, rest) =>
    if isInfLine line then
      match rest with
      | '{' :: rest2 =>
        match takeUntilRBrace rest2 with
        | some (body, rest3) =>
          if body.isEmpty then none
          else some (line, '{' :: (body ++ ['}']), rest3)
        | none => none
      | _ => none
    else none

/-- Model of `re.finditer` of the library-record pattern in MULTILINE mode: try the
pattern at every line start, left to right, non-overlapping; after a match
continue right after it.  Fuel-driven; every step consumes at least one
character, so `fuel = text.length` suffices. -/
def scanLibsAux : Nat → Bool → List Char → List (List Char × List Char)
  | 0, _, _ => []
  | fuel + 1, atStart, cs =>
    match cs with
    | [] => []
    | c :: rest =>
      if atStart then
        match matchLibAt cs with
        | some (path, info, after) => (path, info) :: scanLibsAux fuel false after
        | none => scanLibsAux fuel (c == '\n') rest
      else scanLibsAux fuel (c == '\n') rest

/-- All library records of a library section, in order of appearance. -/
def scanLibs (s : List Char) : List LibRec :=
  (scanLibsAux s.length true s).map fun pi =>
    { path := pi.1, normalized_path := normalizePath pi.1,
      name := extractLibraryName pi.2, info := pi.2,
      full := pi.1 ++ '\n' :: pi.2 }

/-- Model of `BuildReport.get_library_count`. -/
def get_library_count (r : Report) (module_name : String) : Nat :=
  match dictLookup r.modules module_name with
  | none => 0
  | some content =>
    if !(containsSub content LIB_MARKER) || !(containsSub content LIB_END) then 0
    else
      match splitOnce LIB_MARKER content with
      | none => 0
      | some (_, remaining) =>
        let libSection :=
          match splitOnce LIB_END remaining with
          | some (s, _) => s
          | none => remaining
        (scanLibs libSection).length

/-- The inner search of the library matching loop: the first index (and
record) in `curr`, counting from `i`, whose index is not yet used and
whose normalized path equals `np`. -/
def findMatchAux (np : List Char) (used : List Nat) : Nat → List LibRec → Option (Nat × LibRec)
  | _, [] => none
  | i, l :: rest =>
    if i ∉ used ∧ l.normalized_path = np then some (i, l)
    else findMatchAux np used (i + 1) rest

/-- The reference pass of the library reorder (lines 261–267): for each
reference record in order, append the first unused matching target record
and mark its index used. -/
def reorderLibsAux (curr : List LibRec) : List LibRec × List Nat → List LibRec → List LibRec × List Nat
  | acc, [] => acc
  | acc, rl :: refRest =>
    match findMatchAux rl.normalized_path acc.2 0 curr with
    | some il => reorderLibsAux curr (acc.1 ++ [il.2], acc.2 ++ [il.1]) refRest
    | none => reorderLibsAux curr acc refRest

/-- The leftover pass (lines 269–272): the unused records in original
order. -/
def remainingLibs (curr : List LibRec) (used : List Nat) : List LibRec :=
  (curr.enum.filter (fun p => p.1 ∉ used)).map (·.2)

/-- The full library reorder of a module: matched records in reference
order, then the unmatched ones in original order. -/
def reorderLibs (ref curr : List LibRec) : List LibRec :=
  let acc := reorderLibsAux curr ([], []) ref
  acc.1 ++ remainingLibs curr acc.2

/-- The spec's wording of the library-level reorder, stated without index
bookkeeping: for each reference record in order take the first remaining
record with the same normalized path out of the target list, and append
whatever remains at the end.  Used to compare the source's index-set
implementation against the specified policy. -/
def specLibReorder : List LibRec → List LibRec → List LibRec
  | [], curr => curr
  | rl :: refRest, curr =>
    match curr.find? (fun l => l.normalized_path == rl.normalized_path) with
    | some l =>
      l :: specLibReorder refRest (curr.eraseP (fun l => l.normalized_path == rl.normalized_path))
    | none => specLibReorder refRest curr

/-- Python `'\n'.join`. -/
def joinNL : List (List Char) → List Char
  | [] => []
  | [x] => x
  | x :: y :: rest => x ++ '\n' :: joinNL (y :: rest)

/-- Model of `BuildReport._reorder_libraries_in_module`: locate the library
sub-section, extract the target and (same-key) reference record lists,
reorder, and splice the rebuilt section back between the delimiters. -/
def reorderLibrariesInModule (module_content : List Char) (module_name : String)
    (reference : Report) : List Char :=
  if !(containsSub module_content LIB_MARKER) || !(containsSub module_content LIB_END) then
    module_content
  else
    match splitOnce LIB_MARKER module_content with
    | none => module_content
    | some (before, remaining) =>
      match splitOnce LIB_END remaining with
      | none => module_content
      | some (libSection, after) =>
        let current_libs := scanLibs libSection
        if current_libs.isEmpty then module_content
        else
          let ref_libs :=
            match dictLookup reference.modules module_name with
            | none => []
            | some refModule =>
              match splitOnce LIB_MARKER refModule with
              | none => []
              | some (_, refRemaining) =>
                let refLibSection :=
                  match splitOnce LIB_END refRemaining with
                  | some (s, _) => s
                  | none => refRemaining
                scanLibs refLibSection
          if ref_libs.isEmpty then module_content
          else
            let reordered := reorderLibs ref_libs current_libs
            let newLibSection := joinNL (reordered.map (·.full))
            let wrapped :=
              if newLibSection.isEmpty then newLibSection
              else '\n' :: (newLibSection ++ ['\n'])
            before ++ LIB_MARKER ++ wrapped ++ LIB_END ++ after

/-- The mismatch list collected by `verify_report_integrity` (lines
308–318): for every key of the pre-transformation report in order, the
pair of library counts when they differ. -/
def collectMismatches (original output : Report) : List (String × Nat × Nat) :=
  original.module_order.filterMap fun m =>
    let a := get_library_count original m
    let b := get_library_count output m
    if a ≠ b then some (m, a, b) else none

/-- Model of `verify_report_integrity`, with the already re-parsed output report as
argument (the source re-reads it from disk; file I/O is outside the
model): `False` on a module-count difference, `False` when any library
count differs, `True` otherwise. -/
def verify_report_integrity (original output : Report) : Bool :=
  if original.module_order.length ≠ output.module_order.length then false
  else (collectMismatches original output).isEmpty

/-- The bounded mismatch list printed on failure (`mismatches[:10]`). -/
def verifyPrintedMismatches (original output : Report) : List (String × Nat × Nat) :=
  (collectMismatches original output).take 10

/-- Sample target report for the module-level end-to-end scenario:
modules `Y`, `X`, `W` in that order. -/
def exampleTarget : Report :=
  ⟨[], [("Y", "y".data), ("X", "x".data), ("W", "w".data)], ["Y", "X", "W"]⟩

/-- A sample library record with a given path. -/
def sampleLib (p : String) : LibRec :=
  { path := p.data, normalized_path := normalizePath p.data, name := none,
    info := "{L: i}".data, full := p.data ++ '\n' :: "{L: i}".data }

/-- Report text with two named modules `M1` and `M2`. -/
def twoModuleText : List Char :=
  "HDR\n".data ++ MODULE_PATTERN ++ "\nModule Name: M1\nbody1\n".data
    ++ MODULE_PATTERN ++ "\nModule Name: M2\nbody2\n".data

/-- The report parsed from `twoModuleText` (the parse succeeds, so the
fallback arm is never taken). -/
def twoModuleReport : Report :=
  match parse twoModuleText with
  | .ok r => r
  | .error _ => ⟨[], [], []⟩

/-- Report text whose second block has no `Module Name:` line. -/
def unnamedBlockText : List Char :=
  "HDR\n".data ++ MODULE_PATTERN ++ "\nModule Name: M1\nbody1\n".data
    ++ MODULE_PATTERN ++ "\nno name here\n".data

/-- Report text with three blocks named `A`, `A` and `A#2`: the literal
name of the third block collides with the suffixed key generated for the
second. -/
def collidingText : List Char :=
  "HDR\n".data ++ MODULE_PATTERN ++ "\nModule Name: A\nb1\n".data
    ++ MODULE_PATTERN ++ "\nModule Name: A\nb2\n".data
    ++ MODULE_PATTERN ++ "\nModule Name: A#2\nb3\n".data

/-- A library section holding a well-formed record, a record with an empty
attribute block, and another well-formed record. -/
def braceDemoSection : List Char :=
  "\nfoo.inf\n{Lib: x}\nbar.inf\n{}\nbaz.inf\n{B: y}\n".data

/-- A one-module report whose library section is `braceDemoSection`. -/
def braceDemoReport : Report :=
  ⟨[], [("M", "pre\n".data ++ LIB_MARKER ++ braceDemoSection ++ LIB_END ++ "\npost".data)],
   ["M"]⟩

/-- One-module report used to witness the verifier: it disagrees with
`mismatchOutput` in module count. -/
def mismatchOriginal : Report := ⟨[], [("M", [])], ["M"]⟩

/-- Empty report used to witness the verifier. -/
def mismatchOutput : Report := ⟨[], [], []⟩

/-- The records of `rest` whose indices (counting from `i`) are not in
`used`, in their original order: the index-set view of the records still
available to the library matching loop (proof abstraction). -/
def remFrom (i : Nat) (rest : List LibRec) (used : List Nat) : List LibRec :=
  ((List.enumFrom i rest).filter (fun p => p.1 ∉ used)).map (·.2)

/-- Value of a little-endian decimal digit list (proof tool for the
injectivity of `decRepr`). -/
def decVal : List Nat → Nat
  | [] => 0
  | d :: ds => d + 10 * decVal ds

/-! ### Helper lemmas about the module-level reorder -/

theorem pass1_foldl (r : Report) (ref acc used : List String) :
    ref.foldl (fun (a : List String × List String) k =>
      if memModules r k then (a.1 ++ [k], k :: a.2) else a) (acc, used)
    = (acc ++ ref.filter (fun k => memModules r k),
       (ref.filter (fun k => memModules r k)).reverse ++ used) := by
  induction ref generalizing acc used with
  | nil => simp
  | cons k rest ih =>
    by_cases h : memModules r k
    · simp [h, ih, List.filter_cons]
    · simp [h, ih, List.filter_cons]

theorem pass2_foldl (used : List String) (l acc : List String) :
    l.foldl (fun a k => if k ∈ used then a else a ++ [k]) acc
    = acc ++ l.filter (fun k => decide (k ∉ used)) := by
  induction l generalizing acc with
  | nil => simp
  | cons k rest ih =>
    by_cases h : k ∈ used
    · simp [h, ih, List.filter_cons]
    · simp [h, ih, List.filter_cons]

theorem reorder_modules_eq (ref : List String) (r : Report) :
    reorder_modules ref r
    = ref.filter (fun k => memModules r k)
      ++ r.module_order.filter
          (fun k => decide (k ∉ ref.filter (fun x => memModules r x))) := by
  unfold reorder_modules
  rw [pass1_foldl r ref [] []]
  rw [pass2_foldl]
  simp only [List.nil_append]
  congr 1
  apply List.filter_congr
  intro k _
  simp [List.mem_reverse]

/-! ### Helper lemmas about parsing and the duplicate-name keys -/

theorem dictLookup_nil (k : String) : dictLookup [] k = none := rfl

theorem dictLookup_cons (a : String) (b : List Char) (rest : List (String × List Char))
    (k : String) :
    dictLookup ((a, b) :: rest) k = if a == k then some b else dictLookup rest k := rfl

theorem dictInsert_cons (k : String) (v : List Char) (a : String) (b : List Char)
    (rest : List (String × List Char)) :
    dictInsert k v ((a, b) :: rest)
    = if a == k then (a, v) :: rest else (a, b) :: dictInsert k v rest := rfl

theorem dictLookup_dictInsert_isSome (m : List (String × List Char)) (k k' : String)
    (v : List Char) :
    (dictLookup (dictInsert k v m) k').isSome = true
    ↔ k' = k ∨ (dictLookup m k').isSome = true := by
  induction m with
  | nil =>
    show (dictLookup [(k, v)] k').isSome = true ↔ _
    rw [dictLookup_cons, dictLookup_nil]
    by_cases h : k = k'
    · simp [h]
    · have hb : (k == k') = false := by simp [h]
      simp [hb, dictLookup_nil]
      exact fun hh => (h hh.symm).elim
  | cons e rest ih =>
    obtain ⟨a, b⟩ := e
    rw [dictInsert_cons]
    by_cases hak : a = k
    · have h0 : (a == k) = true := by simp [hak]
      rw [if_pos h0, dictLookup_cons, dictLookup_cons]
      by_cases hk' : a = k'
      · have h1 : (a == k') = true := by simp [hk']
        simp [h1, hak, hk'.symm]
      · have h1 : (a == k') = false := by simp [hk']
        have h2 : ¬ k' = k := fun hh => hk' (by rw [hak, ← hh])
        simp [h1, h2]
    · have h0 : (a == k) = false := by simp [hak]
      rw [if_neg (by simp [h0]), dictLookup_cons, dictLookup_cons]
      by_cases hk' : a = k'
      · have h1 : (a == k') = true := by simp [hk']
        simp [h1]
      · have h1 : (a == k') = false := by simp [hk']
        simp [h1, ih]

theorem processBlocks_nil (counts : String → Nat) (mods : List (String × List Char))
    (order : List String) : processBlocks counts mods order [] = (mods, order) := rfl

theorem processBlocks_cons_none (counts : String → Nat) (mods : List (String × List Char))
    (order : List String) (b : List Char) (rest : List (List Char))
    (h : extractModuleName b = none) :
    processBlocks counts mods order (b :: rest) = processBlocks counts mods order rest := by
  conv_lhs => unfold processBlocks
  rw [h]

theorem processBlocks_cons_some (counts : String → Nat) (mods : List (String × List Char))
    (order : List String) (b : List Char) (rest : List (List Char)) (nm : List Char)
    (h : extractModuleName b = some nm) :
    processBlocks counts mods order (b :: rest)
    = processBlocks (bumpCount counts ⟨nm⟩) (dictInsert (dedupKey counts ⟨nm⟩) b mods)
        (order ++ [dedupKey counts ⟨nm⟩]) rest := by
  conv_lhs => unfold processBlocks
  rw [h]

theorem processBlocks_order (bs : List (List Char)) (counts : String → Nat)
    (mods : List (String × List Char)) (order : List String) :
    (processBlocks counts mods order bs).2
    = order ++ assignKeysAux counts
        (bs.filterMap (fun b => (extractModuleName b).map (fun nm => (⟨nm⟩ : String)))) := by
  induction bs generalizing counts mods order with
  | nil => simp [processBlocks_nil, assignKeysAux]
  | cons b rest ih =>
    cases h : extractModuleName b with
    | none => simp [processBlocks_cons_none _ _ _ _ _ h, h, ih]
    | some nm =>
      rw [processBlocks_cons_some _ _ _ _ _ _ h, ih]
      simp [h, assignKeysAux]

theorem processBlocks_mem_iff (bs : List (List Char)) (counts : String → Nat)
    (mods : List (String × List Char)) (order : List String)
    (hinv : ∀ k, (dictLookup mods k).isSome = true ↔ k ∈ order) (k : String) :
    (dictLookup (processBlocks counts mods order bs).1 k).isSome = true
    ↔ k ∈ (processBlocks counts mods order bs).2 := by
  induction bs generalizing counts mods order with
  | nil => simpa [processBlocks_nil] using hinv k
  | cons b rest ih =>
    cases h : extractModuleName b with
    | none =>
      rw [processBlocks_cons_none _ _ _ _ _ h]
      exact ih _ _ _ hinv
    | some nm =>
      rw [processBlocks_cons_some _ _ _ _ _ _ h]
      apply ih
      intro k'
      rw [dictLookup_dictInsert_isSome, hinv k']
      simp [or_comm]

theorem processBlocks_skip_unnamed (bs : List (List Char)) (counts : String → Nat)
    (mods : List (String × List Char)) (order : List String) :
    processBlocks counts mods order bs
    = processBlocks counts mods order (bs.filter (fun b => (extractModuleName b).isSome)) := by
  induction bs generalizing counts mods order with
  | nil => rfl
  | cons b rest ih =>
    cases h : extractModuleName b with
    | none =>
      rw [processBlocks_cons_none _ _ _ _ _ h, List.filter_cons]
      simp [h, ih]
    | some nm =>
      rw [processBlocks_cons_some _ _ _ _ _ _ h, List.filter_cons]
      simp only [h, Option.isSome_some, if_true]
      rw [processBlocks_cons_some _ _ _ _ _ _ h]
      exact ih _ _ _

theorem assignKeysAux_length (names : List String) (f : String → Nat) :
    (assignKeysAux f names).length = names.length := by
  induction names generalizing f with
  | nil => rfl
  | cons n rest ih => simp [assignKeysAux, ih]

theorem assignKeysAux_getElem (names : List String) (f : String → Nat) (i : Nat) (n : String)
    (hn : names[i]? = some n) :
    (assignKeysAux f names)[i]?
    = some (if f n + (names.take (i + 1)).count n = 1 then n
            else n ++ "#" ++ decRepr (f n + (names.take (i + 1)).count n)) := by
  induction names generalizing f i with
  | nil => simp at hn
  | cons m rest ih =>
    cases i with
    | zero =>
      simp only [List.getElem?_cons_zero, Option.some.injEq] at hn
      subst hn
      have hcount : ((m :: rest).take 1).count m = 1 := by
        simp [List.count_cons]
      simp only [assignKeysAux, List.getElem?_cons_zero, hcount, dedupKey]
      by_cases hf : f m = 0
      · simp [hf]
      · have h1 : f m + 1 ≠ 1 := by omega
        simp [hf, h1]
    | succ j =>
      simp only [List.getElem?_cons_succ] at hn
      simp only [assignKeysAux, List.getElem?_cons_succ]
      rw [ih (bumpCount f m) j hn]
      have harith : bumpCount f m n + (rest.take (j + 1)).count n
          = f n + ((m :: rest).take (j + 1 + 1)).count n := by
        rw [List.take_succ_cons, List.count_cons]
        unfold bumpCount
        by_cases hnm : n = m
        · subst hnm
          simp only [if_pos rfl, beq_self_eq_true, if_true]
          omega
        · have hb : (m == n) = false := by simp [Ne.symm hnm]
          simp only [if_neg hnm, hb, Bool.false_eq_true, if_false]
          omega
      rw [harith]

/-! ### Helper lemmas about the decimal rendering -/

theorem decDigitsAux_fuel (n : Nat) : ∀ f₁ f₂, n ≤ f₁ → n ≤ f₂ →
    decDigitsAux f₁ n = decDigitsAux f₂ n := by
  induction n using Nat.strong_induction_on with
  | _ n ih =>
    intro f₁ f₂ h₁ h₂
    cases n with
    | zero => cases f₁ <;> cases f₂ <;> rfl
    | succ m =>
      obtain ⟨g₁, rfl⟩ : ∃ g, f₁ = g + 1 := ⟨f₁ - 1, by omega⟩
      obtain ⟨g₂, rfl⟩ : ∃ g, f₂ = g + 1 := ⟨f₂ - 1, by omega⟩
      simp only [decDigitsAux]
      congr 1
      have hlt : (m + 1) / 10 < m + 1 := Nat.div_lt_self (by omega) (by omega)
      exact ih ((m + 1) / 10) hlt g₁ g₂ (by omega) (by omega)

theorem decDigits_succ (m : Nat) :
    decDigits (m + 1) = (m + 1) % 10 :: decDigits ((m + 1) / 10) := by
  show decDigitsAux (m + 1) (m + 1) = _
  simp only [decDigitsAux]
  congr 1
  have hlt : (m + 1) / 10 < m + 1 := Nat.div_lt_self (by omega) (by omega)
  exact decDigitsAux_fuel ((m + 1) / 10) m ((m + 1) / 10) (by omega) (by omega)

theorem decVal_decDigits (n : Nat) : decVal (decDigits n) = n := by
  induction n using Nat.strong_induction_on with
  | _ n ih =>
    cases n with
    | zero => rfl
    | succ m =>
      rw [decDigits_succ]
      have hlt : (m + 1) / 10 < m + 1 := Nat.div_lt_self (by omega) (by omega)
      show (m + 1) % 10 + 10 * decVal (decDigits ((m + 1) / 10)) = m + 1
      rw [ih _ hlt]
      omega

theorem decDigits_lt_ten (n : Nat) : ∀ d ∈ decDigits n, d < 10 := by
  induction n using Nat.strong_induction_on with
  | _ n ih =>
    cases n with
    | zero => intro d hd; simp [decDigits, decDigitsAux] at hd
    | succ m =>
      rw [decDigits_succ]
      intro d hd
      rcases List.mem_cons.mp hd with h | h
      · subst h; exact Nat.mod_lt _ (by omega)
      · exact ih _ (Nat.div_lt_self (by omega) (by omega)) d h

theorem digitCharOf_injOn (d₁ d₂ : Nat) (h₁ : d₁ < 10) (h₂ : d₂ < 10) :
    digitCharOf d₁ = digitCharOf d₂ → d₁ = d₂ := by
  interval_cases d₁ <;> interval_cases d₂ <;> decide

theorem digitCharOf_ne_hash (d : Nat) (h : d < 10) : digitCharOf d ≠ '#' := by
  interval_cases d <;> decide

theorem map_digitCharOf_inj : ∀ (l₁ l₂ : List Nat), (∀ d ∈ l₁, d < 10) → (∀ d ∈ l₂, d < 10)
    → l₁.map digitCharOf = l₂.map digitCharOf → l₁ = l₂
  | [], [], _, _, _ => rfl
  | [], _ :: _, _, _, h => by simp at h
  | _ :: _, [], _, _, h => by simp at h
  | a :: t, b :: t₂, h₁, h₂, h => by
    simp only [List.map_cons, List.cons.injEq] at h
    have hab := digitCharOf_injOn a b (h₁ a (by simp)) (h₂ b (by simp)) h.1
    subst hab
    rw [map_digitCharOf_inj t t₂ (fun d hd => h₁ d (by simp [hd]))
      (fun d hd => h₂ d (by simp [hd])) h.2]

theorem decRepr_inj_pos (m n : Nat) (hm : 0 < m) (hn : 0 < n)
    (h : decRepr m = decRepr n) : m = n := by
  unfold decRepr at h
  rw [if_neg (by omega), if_neg (by omega)] at h
  have hdata : (decDigits m).reverse.map digitCharOf = (decDigits n).reverse.map digitCharOf :=
    congrArg String.data h
  rw [List.map_reverse, List.map_reverse] at hdata
  have hmap := List.reverse_inj.mp hdata
  have hdig := map_digitCharOf_inj _ _ (decDigits_lt_ten m) (decDigits_lt_ten n) hmap
  have := congrArg decVal hdig
  rwa [decVal_decDigits, decVal_decDigits] at this

theorem hash_not_mem_decRepr (n : Nat) : '#' ∉ (decRepr n).data := by
  unfold decRepr
  by_cases h : n = 0
  · rw [if_pos h]; decide
  · rw [if_neg h]
    intro hmem
    have hmem' : '#' ∈ (decDigits n).reverse.map digitCharOf := hmem
    rcases List.mem_map.mp hmem' with ⟨d, hd, hdc⟩
    exact digitCharOf_ne_hash d (decDigits_lt_ten n d (List.mem_reverse.mp hd)) hdc

theorem hash_append_inj : ∀ (a b x y : List Char), '#' ∉ a → '#' ∉ b
    → a ++ '#' :: x = b ++ '#' :: y → a = b ∧ x = y
  | [], [], x, y, _, _, h => by simpa using h
  | [], c :: t, x, y, _, hb, h => by
    simp only [List.nil_append, List.cons_append, List.cons.injEq] at h
    exact absurd (h.1 ▸ List.mem_cons_self c t) (by simp_all)
  | c :: t, [], x, y, ha, _, h => by
    simp only [List.nil_append, List.cons_append, List.cons.injEq] at h
    exact absurd (h.1 ▸ List.mem_cons_self c t) (by simp_all)
  | a₀ :: t, b₀ :: t₂, x, y, ha, hb, h => by
    simp only [List.cons_append, List.cons.injEq] at h
    obtain ⟨rfl, h2⟩ := h
    obtain ⟨rfl, rfl⟩ := hash_append_inj t t₂ x y
      (fun hx => ha (List.mem_cons_of_mem _ hx)) (fun hx => hb (List.mem_cons_of_mem _ hx)) h2
    exact ⟨rfl, rfl⟩

theorem string_append_data (a b : String) : (a ++ b).data = a.data ++ b.data := by
  cases a; cases b; rfl

theorem string_hash_inj (s t u v : String) (hs : '#' ∉ s.data) (ht : '#' ∉ t.data)
    (h : s ++ "#" ++ u = t ++ "#" ++ v) : s = t ∧ u = v := by
  have hd := congrArg String.data h
  rw [string_append_data, string_append_data, string_append_data, string_append_data] at hd
  have h2 : s.data ++ '#' :: u.data = t.data ++ '#' :: v.data := by simpa using hd
  obtain ⟨h3, h4⟩ := hash_append_inj s.data t.data u.data v.data hs ht h2
  exact ⟨String.ext h3, String.ext h4⟩

/-! ### Distinctness of the duplicate-suffixed keys -/

theorem count_take_lt (l : List String) (i j : Nat) (a : String) (hij : i < j)
    (hj : l[j]? = some a) : (l.take (i + 1)).count a < (l.take (j + 1)).count a := by
  have hjl : j < l.length := by
    by_contra hx
    rw [List.getElem?_eq_none (by omega)] at hj
    exact Option.noConfusion hj
  have htt : (l.take (j + 1)).take (i + 1) = l.take (i + 1) := by
    rw [List.take_take]
    congr 1
    omega
  have hmem : a ∈ (l.take (j + 1)).drop (i + 1) := by
    have hidx : ((l.take (j + 1)).drop (i + 1))[j - (i + 1)]? = some a := by
      rw [List.getElem?_drop]
      have harg : i + 1 + (j - (i + 1)) = j := by omega
      rw [harg, List.getElem?_take, if_pos (by omega)]
      exact hj
    exact List.getElem?_mem hidx
  have hpos : 0 < ((l.take (j + 1)).drop (i + 1)).count a := List.count_pos_iff.mpr hmem
  have hsum : (l.take (j + 1)).count a
      = (l.take (i + 1)).count a + ((l.take (j + 1)).drop (i + 1)).count a := by
    conv_lhs => rw [← List.take_append_drop (i + 1) (l.take (j + 1))]
    rw [List.count_append, htt]
  omega

theorem assignKeys_getElem (names : List String) (i : Nat) (n : String)
    (hn : names[i]? = some n) :
    (assignKeys names)[i]?
    = some (if (names.take (i + 1)).count n = 1 then n
            else n ++ "#" ++ decRepr ((names.take (i + 1)).count n)) := by
  unfold assignKeys
  rw [assignKeysAux_getElem names (fun _ => 0) i n hn]
  simp

theorem count_take_pos (names : List String) (i : Nat) (n : String)
    (hn : names[i]? = some n) : 0 < (names.take (i + 1)).count n := by
  apply List.count_pos_iff.mpr
  have hidx : (names.take (i + 1))[i]? = some n := by
    rw [List.getElem?_take, if_pos (by omega)]
    exact hn
  exact List.getElem?_mem hidx

theorem assignKeys_key_ne (names : List String) (hfree : ∀ n ∈ names, '#' ∉ n.data)
    (i j : Nat) (hij : i < j) (ni nj : String)
    (hni : names[i]? = some ni) (hnj : names[j]? = some nj) (ki kj : String)
    (hki : (assignKeys names)[i]? = some ki) (hkj : (assignKeys names)[j]? = some kj) :
    ki ≠ kj := by
  rw [assignKeys_getElem names i ni hni] at hki
  rw [assignKeys_getElem names j nj hnj] at hkj
  set ci := (names.take (i + 1)).count ni with hci
  set cj := (names.take (j + 1)).count nj with hcj
  have hipos : 0 < ci := count_take_pos names i ni hni
  have hjpos : 0 < cj := count_take_pos names j nj hnj
  have hfi : '#' ∉ ni.data := hfree ni (List.getElem?_mem hni)
  have hfj : '#' ∉ nj.data := hfree nj (List.getElem?_mem hnj)
  simp only [Option.some.injEq] at hki hkj
  subst hki hkj
  intro heq
  by_cases h1 : ci = 1 <;> by_cases h2 : cj = 1
  · rw [if_pos h1, if_pos h2] at heq
    subst heq
    have := count_take_lt names i j ni hij hnj
    omega
  · rw [if_pos h1, if_neg h2] at heq
    apply hfi
    rw [heq, string_append_data, string_append_data]
    simp
  · rw [if_neg h1, if_pos h2] at heq
    apply hfj
    rw [← heq, string_append_data, string_append_data]
    simp
  · rw [if_neg h1, if_neg h2] at heq
    obtain ⟨hnn, hcc⟩ := string_hash_inj ni nj (decRepr ci) (decRepr cj) hfi hfj heq
    subst hnn
    have hcij : ci = cj := decRepr_inj_pos ci cj hipos hjpos hcc
    have := count_take_lt names i j ni hij hnj
    omega

theorem assignKeys_nodup (names : List String) (hfree : ∀ n ∈ names, '#' ∉ n.data) :
    (assignKeys names).Nodup := by
  rw [List.nodup_iff_injective_get]
  intro a b hab
  obtain ⟨i, hi⟩ := a
  obtain ⟨j, hj⟩ := b
  have hlen : (assignKeys names).length = names.length := assignKeysAux_length names _
  have hni : ∃ n, names[i]? = some n := by
    have : i < names.length := by omega
    exact ⟨names[i], (List.getElem?_eq_some_getElem_iff names i this).mpr trivial⟩
  have hnj : ∃ n, names[j]? = some n := by
    have : j < names.length := by omega
    exact ⟨names[j], (List.getElem?_eq_some_getElem_iff names j this).mpr trivial⟩
  obtain ⟨ni, hni⟩ := hni
  obtain ⟨nj, hnj⟩ := hnj
  have hk : (assignKeys names).get ⟨i, hi⟩ = (assignKeys names).get ⟨j, hj⟩ := hab
  have hki : (assignKeys names)[i]? = some ((assignKeys names).get ⟨i, hi⟩) := by
    simp [List.getElem?_eq_some_getElem_iff]
  have hkj : (assignKeys names)[j]? = some ((assignKeys names).get ⟨j, hj⟩) := by
    simp [List.getElem?_eq_some_getElem_iff]
  rcases Nat.lt_trichotomy i j with hij | hij | hij
  · exact absurd hk (assignKeys_key_ne names hfree i j hij ni nj hni hnj _ _ hki hkj)
  · exact Fin.ext hij
  · exact absurd hk.symm (assignKeys_key_ne names hfree j i hij nj ni hnj hni _ _ hkj hki)

/-! ### The library reorder implements the specified stable partition -/

theorem remainingLibs_eq_remFrom (curr : List LibRec) (used : List Nat) :
    remainingLibs curr used = remFrom 0 curr used := rfl

theorem remFrom_nil (i : Nat) (used : List Nat) : remFrom i [] used = [] := rfl

theorem remFrom_cons_mem (i : Nat) (l : LibRec) (rest : List LibRec) (used : List Nat)
    (h : i ∈ used) : remFrom i (l :: rest) used = remFrom (i + 1) rest used := by
  unfold remFrom
  have hcons : List.enumFrom i (l :: rest) = (i, l) :: List.enumFrom (i + 1) rest := rfl
  rw [hcons, List.filter_cons]
  simp [h]

theorem remFrom_cons_not_mem (i : Nat) (l : LibRec) (rest : List LibRec) (used : List Nat)
    (h : i ∉ used) : remFrom i (l :: rest) used = l :: remFrom (i + 1) rest used := by
  unfold remFrom
  have hcons : List.enumFrom i (l :: rest) = (i, l) :: List.enumFrom (i + 1) rest := rfl
  rw [hcons, List.filter_cons]
  simp [h]

theorem remFrom_used_lt (rest : List LibRec) : ∀ (i : Nat) (used : List Nat) (j : Nat),
    j < i → remFrom i rest (used ++ [j]) = remFrom i rest used := by
  induction rest with
  | nil => intro i used j _; rfl
  | cons l t ih =>
    intro i used j hj
    by_cases h : i ∈ used
    · rw [remFrom_cons_mem _ _ _ _ (by simp [h]), remFrom_cons_mem _ _ _ _ h]
      exact ih (i + 1) used j (by omega)
    · have h2 : i ∉ used ++ [j] := by
        simp [h]
        omega
      rw [remFrom_cons_not_mem _ _ _ _ h2, remFrom_cons_not_mem _ _ _ _ h]
      rw [ih (i + 1) used j (by omega)]

theorem findMatchAux_le (np : List Char) (used : List Nat) :
    ∀ (rest : List LibRec) (i j : Nat) (l : LibRec),
    findMatchAux np used i rest = some (j, l) → i ≤ j := by
  intro rest
  induction rest with
  | nil => intro i j l h; simp [findMatchAux] at h
  | cons l₀ t ih =>
    intro i j l h
    unfold findMatchAux at h
    by_cases hc : i ∉ used ∧ l₀.normalized_path = np
    · rw [if_pos hc] at h
      simp at h
      omega
    · rw [if_neg hc] at h
      have := ih (i + 1) j l h
      omega

theorem findMatchAux_none_spec (np : List Char) (used : List Nat) :
    ∀ (rest : List LibRec) (i : Nat),
    findMatchAux np used i rest = none →
    (remFrom i rest used).find? (fun l => l.normalized_path == np) = none := by
  intro rest
  induction rest with
  | nil => intro i _; rfl
  | cons l₀ t ih =>
    intro i h
    unfold findMatchAux at h
    by_cases hc : i ∉ used ∧ l₀.normalized_path = np
    · rw [if_pos hc] at h
      exact Option.noConfusion h
    · rw [if_neg hc] at h
      by_cases hu : i ∈ used
      · rw [remFrom_cons_mem _ _ _ _ hu]
        exact ih (i + 1) h
      · have hnp : ¬ l₀.normalized_path = np := fun hx => hc ⟨hu, hx⟩
        rw [remFrom_cons_not_mem _ _ _ _ hu]
        rw [List.find?_cons_of_neg _ (by simpa using hnp)]
        exact ih (i + 1) h

theorem findMatchAux_some_spec (np : List Char) (used : List Nat) :
    ∀ (rest : List LibRec) (i j : Nat) (l : LibRec),
    findMatchAux np used i rest = some (j, l) →
    (remFrom i rest used).find? (fun x => x.normalized_path == np) = some l
    ∧ remFrom i rest (used ++ [j])
      = (remFrom i rest used).eraseP (fun x => x.normalized_path == np) := by
  intro rest
  induction rest with
  | nil => intro i j l h; simp [findMatchAux] at h
  | cons l₀ t ih =>
    intro i j l h
    unfold findMatchAux at h
    by_cases hc : i ∉ used ∧ l₀.normalized_path = np
    · rw [if_pos hc] at h
      simp only [Option.some.injEq, Prod.mk.injEq] at h
      obtain ⟨rfl, rfl⟩ := h
      constructor
      · rw [remFrom_cons_not_mem _ _ _ _ hc.1]
        exact List.find?_cons_of_pos _ (by simp [hc.2])
      · rw [remFrom_cons_mem _ _ _ _ (by simp), remFrom_cons_not_mem _ _ _ _ hc.1]
        rw [List.eraseP_cons, remFrom_used_lt t (i + 1) used i (by omega)]
        simp [hc.2]
    · rw [if_neg hc] at h
      have hj : i + 1 ≤ j := findMatchAux_le np used t (i + 1) j l h
      obtain ⟨ih1, ih2⟩ := ih (i + 1) j l h
      by_cases hu : i ∈ used
      · constructor
        · rw [remFrom_cons_mem _ _ _ _ hu]
          exact ih1
        · rw [remFrom_cons_mem _ _ _ _ (by simp [hu]), remFrom_cons_mem _ _ _ _ hu]
          exact ih2
      · have hnp : ¬ l₀.normalized_path = np := fun hx => hc ⟨hu, hx⟩
        have hu2 : i ∉ used ++ [j] := by
          rw [List.mem_append]
          push_neg
          refine ⟨hu, ?_⟩
          simp only [List.mem_singleton]
          omega
        constructor
        · rw [remFrom_cons_not_mem _ _ _ _ hu]
          rw [List.find?_cons_of_neg _ (by simpa using hnp)]
          exact ih1
        · rw [remFrom_cons_not_mem _ _ _ _ hu2, remFrom_cons_not_mem _ _ _ _ hu]
          rw [List.eraseP_cons, ih2]
          have hbe : (l₀.normalized_path == np) = false := by simpa using hnp
          rw [hbe, cond_false]

theorem specLibReorder_nil (curr : List LibRec) : specLibReorder [] curr = curr := rfl

theorem specLibReorder_cons_some (rl : LibRec) (refRest curr : List LibRec) (l : LibRec)
    (h : curr.find? (fun x => x.normalized_path == rl.normalized_path) = some l) :
    specLibReorder (rl :: refRest) curr
    = l :: specLibReorder refRest
        (curr.eraseP (fun x => x.normalized_path == rl.normalized_path)) := by
  conv_lhs => unfold specLibReorder
  rw [h]

theorem specLibReorder_cons_none (rl : LibRec) (refRest curr : List LibRec)
    (h : curr.find? (fun x => x.normalized_path == rl.normalized_path) = none) :
    specLibReorder (rl :: refRest) curr = specLibReorder refRest curr := by
  conv_lhs => unfold specLibReorder
  rw [h]

theorem reorderLibsAux_spec (curr : List LibRec) :
    ∀ (ref : List LibRec) (acc1 : List LibRec) (used : List Nat),
    (reorderLibsAux curr (acc1, used) ref).1
      ++ remainingLibs curr (reorderLibsAux curr (acc1, used) ref).2
    = acc1 ++ specLibReorder ref (remFrom 0 curr used) := by
  intro ref
  induction ref with
  | nil =>
    intro acc1 used
    simp [reorderLibsAux, specLibReorder, remainingLibs_eq_remFrom]
  | cons rl refRest ih =>
    intro acc1 used
    unfold reorderLibsAux
    cases h : findMatchAux rl.normalized_path used 0 curr with
    | none =>
      have hf := findMatchAux_none_spec rl.normalized_path used curr 0 h
      rw [ih acc1 used, specLibReorder_cons_none rl refRest _ hf]
    | some il =>
      obtain ⟨j, l⟩ := il
      obtain ⟨hf, he⟩ := findMatchAux_some_spec rl.normalized_path used curr 0 j l h
      rw [ih (acc1 ++ [l]) (used ++ [j])]
      rw [specLibReorder_cons_some rl refRest _ l hf, he]
      simp

theorem reorderLibs_eq_spec (ref curr : List LibRec) :
    reorderLibs ref curr = specLibReorder ref curr := by
  have hbase : remFrom 0 curr [] = curr := by
    unfold remFrom
    rw [List.filter_eq_self.mpr (by simp), List.enumFrom_map_snd]
  have := reorderLibsAux_spec curr ref [] []
  rw [hbase] at this
  simpa [reorderLibs] using this

theorem find?_cons_eraseP_perm (p : LibRec → Bool) :
    ∀ (l : List LibRec) (a : LibRec), l.find? p = some a → (a :: l.eraseP p).Perm l := by
  intro l
  induction l with
  | nil => intro a h; simp at h
  | cons b t ih =>
    intro a h
    by_cases hb : p b
    · rw [List.find?_cons_of_pos _ hb] at h
      obtain rfl := Option.some.inj h
      rw [List.eraseP_cons]
      simp only [hb, cond_true]
      exact List.Perm.refl _
    · rw [List.find?_cons_of_neg _ (by simpa using hb)] at h
      rw [List.eraseP_cons]
      simp only [hb, cond_false]
      exact (List.Perm.swap b a _).trans ((ih a h).cons b)

theorem specLibReorder_perm : ∀ (ref curr : List LibRec), (specLibReorder ref curr).Perm curr := by
  intro ref
  induction ref with
  | nil =>
    intro curr
    rw [specLibReorder_nil]
  | cons rl refRest ih =>
    intro curr
    cases h : curr.find? (fun x => x.normalized_path == rl.normalized_path) with
    | none =>
      rw [specLibReorder_cons_none rl refRest curr h]
      exact ih curr
    | some l =>
      rw [specLibReorder_cons_some rl refRest curr l h]
      exact ((ih _).cons l).trans (find?_cons_eraseP_perm _ curr l h)

/-! ### Helper lemmas about the text scanners -/

theorem takeLine_append : ∀ (w tail : List Char), '\n' ∉ w →
    takeLine (w ++ '\n' :: tail) = some (w, tail)
  | [], tail, _ => by simp [takeLine]
  | c :: t, tail, hw => by
    have hc : (c == '\n') = false := by
      simp only [beq_eq_false_iff_ne, ne_eq]
      intro h
      exact hw (by rw [h]; exact List.mem_cons_self _ _)
    simp only [List.cons_append, takeLine, hc, Bool.false_eq_true, if_false]
    rw [show t.append ('\n' :: tail) = t ++ '\n' :: tail from rfl]
    rw [takeLine_append t tail (fun hx => hw (List.mem_cons_of_mem c hx))]

theorem takeUntilRBrace_none : ∀ (l : List Char), '}' ∉ l → takeUntilRBrace l = none
  | [], _ => rfl
  | c :: t, h => by
    have hc : (c == '}') = false := by
      simp only [beq_eq_false_iff_ne, ne_eq]
      intro hx
      exact h (by rw [hx]; exact List.mem_cons_self _ _)
    simp only [takeUntilRBrace, hc, Bool.false_eq_true, if_false]
    rw [takeUntilRBrace_none t (fun hx => h (List.mem_cons_of_mem c hx))]

theorem containsSub_false_splitOnce (text pat : List Char) (h : containsSub text pat = false) :
    splitOnce pat text = none := by
  unfold containsSub at h
  cases hx : splitOnce pat text with
  | none => rfl
  | some v => rw [hx] at h; simp at h

theorem parse_no_pattern (content : List Char) (h : splitOnce MODULE_PATTERN content = none) :
    parse content = .error .noModulesFound := by
  unfold parse
  rw [h]

theorem parse_with_pattern (content pre rest : List Char)
    (h : splitOnce MODULE_PATTERN content = some (pre, rest)) :
    (parse content).isOk = true := by
  unfold parse
  rw [h]
  rfl

theorem parse_ok_fields (content : List Char) (r : Report) (hok : parse content = .ok r) :
    r.modules = (processBlocks (fun _ => 0) [] [] (moduleBlocks content)).1
    ∧ r.module_order = (processBlocks (fun _ => 0) [] [] (moduleBlocks content)).2 := by
  cases hsplit : splitOnce MODULE_PATTERN content with
  | none =>
    rw [parse_no_pattern content hsplit] at hok
    exact Except.noConfusion hok
  | some pr =>
    obtain ⟨pre, rest⟩ := pr
    have hblocks : moduleBlocks content
        = sliceBlocks (MODULE_PATTERN ++ rest)
            (findStarts MODULE_PATTERN (MODULE_PATTERN ++ rest)) := by
      unfold moduleBlocks moduleSection
      rw [hsplit]
    unfold parse at hok
    rw [hsplit] at hok
    have h2 := Except.ok.inj hok
    rw [hblocks, ← h2]
    exact ⟨rfl, rfl⟩

theorem parse_ok_mem (content : List Char) (r : Report) (hok : parse content = .ok r) :
    ∀ k, (dictLookup r.modules k).isSome = true ↔ k ∈ r.module_order := by
  obtain ⟨h1, h2⟩ := parse_ok_fields content r hok
  intro k
  rw [h1, h2]
  exact processBlocks_mem_iff _ _ _ _ (by intro k'; simp [dictLookup]) k

theorem parse_ok_order (content : List Char) (r : Report) (hok : parse content = .ok r) :
    r.module_order
    = assignKeys ((moduleBlocks content).filterMap
        (fun b => (extractModuleName b).map (fun nm => (⟨nm⟩ : String)))) := by
  obtain ⟨-, h2⟩ := parse_ok_fields content r hok
  rw [h2, processBlocks_order]
  rfl

theorem reorderLibrariesInModule_absent (content : List Char) (name : String) (refR : Report)
    (h : dictLookup refR.modules name = none) :
    reorderLibrariesInModule content name refR = content := by
  unfold reorderLibrariesInModule
  rw [h]
  repeat' split
  all_goals (first | rfl | contradiction | simp)

/-! ### Claims -/

/-- C1 -- — Module-level reorder: for every reference order and target
report, `reorder_modules` computes the reference keys present in the
target's modules, in reference order, followed by the target-order keys
not in that set, in the target's original relative order; in particular
reference `[X, Y, Z]` against target `[Y, X, W]` yields `[X, Y, W]`. -/
theorem C1_module_reorder (ref : List String) (r : Report) :
    reorder_modules ref r
      = ref.filter (fun k => memModules r k)
        ++ r.module_order.filter
            (fun k => decide (k ∉ ref.filter (fun x => memModules r x)))
    ∧ reorder_modules ["X", "Y", "Z"] exampleTarget = ["X", "Y", "W"] :=
  ⟨reorder_modules_eq ref r, by decide⟩

/-- C2 -- — Library-level reorder: the index-set implementation equals
the specified stable partition (for each reference record in order, take
the first unused target record with the same normalized path, then append
the remaining target records in original order); a module whose key is
absent from the reference report keeps its content (hence its library
order) unchanged; and target `[libA, libB, libC]` against reference
`[libC, libA]` yields `[libC, libA, libB]`. -/
theorem C2_library_reorder (content : List Char) (name : String) (refR : Report)
    (h : dictLookup refR.modules name = none) :
    (∀ (ref curr : List LibRec), reorderLibs ref curr = specLibReorder ref curr)
    ∧ reorderLibrariesInModule content name refR = content
    ∧ (reorderLibs [sampleLib "libC.inf", sampleLib "libA.inf"]
        [sampleLib "libA.inf", sampleLib "libB.inf", sampleLib "libC.inf"]).map (·.path)
      = ["libC.inf".data, "libA.inf".data, "libB.inf".data] :=
  ⟨fun ref curr => reorderLibs_eq_spec ref curr,
   reorderLibrariesInModule_absent content name refR h,
   by decide⟩

/-- C2 witness -- -/
theorem C2_library_reorder_witness :
    reorderLibrariesInModule "no markers".data "X" (⟨[], [], []⟩ : Report) = "no markers".data
    ∧ (reorderLibs [sampleLib "libC.inf", sampleLib "libA.inf"]
        [sampleLib "libA.inf", sampleLib "libB.inf", sampleLib "libC.inf"]).map (·.path)
      = ["libC.inf".data, "libA.inf".data, "libB.inf".data] :=
  ⟨(C2_library_reorder "no markers".data "X" ⟨[], [], []⟩ rfl).2.1,
   (C2_library_reorder "no markers".data "X" ⟨[], [], []⟩ rfl).2.2⟩

/-- C3 -- — The library reorder returns a permutation of the extracted
records: same length, same multiset, nothing dropped or duplicated. -/
theorem C3_library_reorder_perm (ref curr : List LibRec) :
    (reorderLibs ref curr).Perm curr ∧ (reorderLibs ref curr).length = curr.length := by
  have hp : (reorderLibs ref curr).Perm curr := by
    rw [reorderLibs_eq_spec]
    exact specLibReorder_perm ref curr
  exact ⟨hp, hp.length_eq⟩

/-- C7 -- — Duplicate-name suffixing is deterministic and order-stable:
the key at position `i` is the bare name when this is the name's first
occurrence in the prefix, and `name#k` when it is the `k`-th; the file
with module names `A, B, A, A` produces exactly `A, B, A#2, A#3`. -/
theorem C7_duplicate_suffixing (names : List String) (i : Nat) (n : String)
    (hn : names[i]? = some n) :
    assignKeys ["A", "B", "A", "A"] = ["A", "B", "A#2", "A#3"]
    ∧ (assignKeys names)[i]?
      = some (if (names.take (i + 1)).count n = 1 then n
              else n ++ "#" ++ decRepr ((names.take (i + 1)).count n)) :=
  ⟨by decide, assignKeys_getElem names i n hn⟩

/-- C7 witness -- -/
theorem C7_duplicate_suffixing_witness :
    assignKeys ["A", "B", "A", "A"] = ["A", "B", "A#2", "A#3"]
    ∧ (assignKeys ["A", "B", "A", "A"])[2]? = some "A#2" := by
  have h := C7_duplicate_suffixing ["A", "B", "A", "A"] 2 "A" (by decide)
  refine ⟨h.1, ?_⟩
  rw [h.2]
  decide

/-- C9 -- — A (non-empty) input in which the module delimiter pattern
never occurs fails to parse with the `NoModulesFound` error. -/
theorem C9_no_modules_error (content : List Char) (hne : content ≠ [])
    (h : containsSub content MODULE_PATTERN = false) :
    parse content = .error .noModulesFound :=
  parse_no_pattern content (containsSub_false_splitOnce content MODULE_PATTERN h)

/-- C9 witness -- -/
theorem C9_no_modules_error_witness : parse "hello".data = .error .noModulesFound :=
  C9_no_modules_error "hello".data (by decide) (by decide)

/-- C5 -- — The verifier returns failure (never success) whenever the
output's module count differs from the pre-transformation target's, or
some module key of the pre-transformation target has differing library
counts; on failure the printed list holds at most the first 10 mismatching
keys, each with its expected and actual counts. -/
theorem C5_verifier (original output : Report)
    (h : original.module_order.length ≠ output.module_order.length
      ∨ ∃ m ∈ original.module_order,
          get_library_count original m ≠ get_library_count output m) :
    verify_report_integrity original output = false
    ∧ (verifyPrintedMismatches original output).length ≤ 10
    ∧ verifyPrintedMismatches original output = (collectMismatches original output).take 10
    ∧ ∀ e ∈ verifyPrintedMismatches original output,
        e.2.1 = get_library_count original e.1 ∧ e.2.2 = get_library_count output e.1
        ∧ e.2.1 ≠ e.2.2 := by
  refine ⟨?_, ?_, rfl, ?_⟩
  · unfold verify_report_integrity
    by_cases hlen : original.module_order.length ≠ output.module_order.length
    · rw [if_pos hlen]
    · rw [if_neg hlen]
      rcases h with h | h
      · exact absurd h hlen
      · obtain ⟨m, hm, hne⟩ := h
        have hmem : (m, get_library_count original m, get_library_count output m)
            ∈ collectMismatches original output := by
          apply List.mem_filterMap.mpr
          exact ⟨m, hm, by rw [if_pos hne]⟩
        have hnil : collectMismatches original output ≠ [] := List.ne_nil_of_mem hmem
        simpa [List.isEmpty_iff] using hnil
  · unfold verifyPrintedMismatches
    rw [List.length_take]
    omega
  · intro e he
    have he2 : e ∈ collectMismatches original output :=
      List.mem_of_mem_take he
    obtain ⟨m, hm, hsome⟩ := List.mem_filterMap.mp he2
    by_cases hne : get_library_count original m ≠ get_library_count output m
    · rw [if_pos hne] at hsome
      obtain rfl := Option.some.inj hsome
      exact ⟨rfl, rfl, hne⟩
    · rw [if_neg hne] at hsome
      exact Option.noConfusion hsome

/-- C5 witness -- -/
theorem C5_verifier_witness :
    verify_report_integrity mismatchOriginal mismatchOutput = false
    ∧ (verifyPrintedMismatches mismatchOriginal mismatchOutput).length ≤ 10 :=
  ⟨(C5_verifier mismatchOriginal mismatchOutput (Or.inl (by decide))).1,
   (C5_verifier mismatchOriginal mismatchOutput (Or.inl (by decide))).2.1⟩

/-- C6 counterexample -- — the claim "a block whose `Module Name:`
pattern does not match makes parsing fail with a `MalformedReport` error"
is false: on a file whose second block has no name, parsing succeeds and
returns only the named module. -/
theorem C6_counterexample :
    (parse unnamedBlockText).toOption.map (fun r => r.module_order) = some ["M1"] := by
  decide

/-- C6 (amended) -- — a block in which the `Module Name:` pattern does
not match is silently dropped: the block loop behaves exactly as if the
unnamed blocks were removed from the input, and parsing succeeds (it
never raises any error) whenever the delimiter pattern occurs. -/
theorem C6_unnamed_blocks_amended (counts : String → Nat)
    (mods : List (String × List Char)) (order : List String) (bs : List (List Char))
    (content : List Char) (h : containsSub content MODULE_PATTERN = true) :
    processBlocks counts mods order bs
      = processBlocks counts mods order (bs.filter (fun b => (extractModuleName b).isSome))
    ∧ (parse content).isOk = true := by
  refine ⟨processBlocks_skip_unnamed bs counts mods order, ?_⟩
  unfold containsSub at h
  cases hx : splitOnce MODULE_PATTERN content with
  | none => rw [hx] at h; simp at h
  | some pr => exact parse_with_pattern content pr.1 pr.2 (by rw [hx])

/-- C6 witness -- -/
theorem C6_unnamed_blocks_witness :
    processBlocks (fun _ => 0) [] [] (moduleBlocks unnamedBlockText)
      = processBlocks (fun _ => 0) [] []
          ((moduleBlocks unnamedBlockText).filter (fun b => (extractModuleName b).isSome))
    ∧ (parse unnamedBlockText).isOk = true :=
  C6_unnamed_blocks_amended (fun _ => 0) [] [] (moduleBlocks unnamedBlockText)
    unnamedBlockText (by decide)

/-- C10 -- — a library record whose attribute block is the empty `{}`,
or whose closing brace never arrives, is not matched by the record
pattern, and hence contributes neither to the module's library count nor
to the records the reorder considers: the demo section with records
`foo.inf/{Lib: x}`, `bar.inf/{}`, `baz.inf/{B: y}` counts 2 and scans to
`[foo.inf, baz.inf]`. -/
theorem C10_brace_records (w rest₁ rest₂ : List Char) (hw : '\n' ∉ w) (hr : '}' ∉ rest₂) :
    matchLibAt (w ++ '\n' :: '{' :: '}' :: rest₁) = none
    ∧ matchLibAt (w ++ '\n' :: '{' :: rest₂) = none
    ∧ get_library_count braceDemoReport "M" = 2
    ∧ (scanLibs braceDemoSection).map (·.path) = ["foo.inf".data, "baz.inf".data] := by
  refine ⟨?_, ?_, by decide, by decide⟩
  · unfold matchLibAt
    rw [takeLine_append w ('{' :: '}' :: rest₁) hw]
    by_cases hinf : isInfLine w
    · simp [hinf, takeUntilRBrace]
    · simp [hinf]
  · unfold matchLibAt
    rw [takeLine_append w ('{' :: rest₂) hw]
    by_cases hinf : isInfLine w
    · simp [hinf, takeUntilRBrace_none rest₂ hr]
    · simp [hinf]

/-- C10 witness -- -/
theorem C10_brace_records_witness :
    matchLibAt ("a.inf".data ++ '\n' :: '{' :: '}' :: "tail".data) = none
    ∧ matchLibAt ("a.inf".data ++ '\n' :: '{' :: "no close".data) = none :=
  ⟨(C10_brace_records "a.inf".data "tail".data "no close".data (by decide) (by decide)).1,
   (C10_brace_records "a.inf".data "tail".data "no close".data (by decide) (by decide)).2.1⟩

/-- C4 counterexample -- — the claim "`order` is always a permutation of
`blocks.keys()`" fails: parsing a file with blocks named `A`, `A`, `A#2`
produces the order `[A, A#2, A#2]`, in which the key `A#2` appears twice
(the third block's literal name collides with the second block's
generated key, overwriting its dict entry). -/
theorem C4_counterexample :
    (parse collidingText).toOption.map
        (fun r => (r.module_order, decide r.module_order.Nodup))
      = some (["A", "A#2", "A#2"], false) := by
  decide

/-- C4 (amended) -- — the invariant holds on every input whose extracted
module names contain no `#` character (so that generated suffixed keys
cannot collide with literal names): after parsing, `module_order` has no
duplicates and contains exactly the keys of the modules dict; and
`reorder_modules` preserves both properties whenever the reference order
is duplicate-free (as every such parsed order is). -/
theorem C4_invariant_amended (content : List Char) (r : Report)
    (hok : parse content = .ok r)
    (hfree : (moduleBlocks content).all
      (fun b => match extractModuleName b with
        | some nm => !(nm.contains '#')
        | none => true) = true)
    (ref : List String) (href : ref.Nodup) :
    (r.module_order.Nodup
      ∧ ∀ k, (dictLookup r.modules k).isSome = true ↔ k ∈ r.module_order)
    ∧ ((reorder_modules ref r).Nodup
      ∧ ∀ k, (dictLookup r.modules k).isSome = true ↔ k ∈ reorder_modules ref r) := by
  have hmem := parse_ok_mem content r hok
  have horder := parse_ok_order content r hok
  have hfree' : ∀ n ∈ (moduleBlocks content).filterMap
      (fun b => (extractModuleName b).map (fun nm => (⟨nm⟩ : String))), '#' ∉ n.data := by
    intro n hn
    obtain ⟨b, hb, hsome⟩ := List.mem_filterMap.mp hn
    obtain ⟨nm, hnm, hmk⟩ := Option.map_eq_some'.mp hsome
    have hall := List.all_eq_true.mp hfree b hb
    rw [hnm] at hall
    have hall2 : (!nm.contains '#') = true := hall
    intro hmemhash
    have hdat : n.data = nm := by rw [← hmk]
    rw [hdat] at hmemhash
    have hc : nm.contains '#' = true := List.elem_eq_true_of_mem hmemhash
    rw [hc] at hall2
    exact Bool.noConfusion hall2
  have hnodup : r.module_order.Nodup := by
    rw [horder]
    exact assignKeys_nodup _ hfree'
  have hreorder_mem : ∀ k, (dictLookup r.modules k).isSome = true ↔ k ∈ reorder_modules ref r := by
    intro k
    rw [reorder_modules_eq, hmem k]
    constructor
    · intro hk
      rw [List.mem_append]
      by_cases hin : k ∈ ref.filter (fun x => memModules r x)
      · exact Or.inl hin
      · right
        rw [List.mem_filter]
        exact ⟨hk, decide_eq_true hin⟩
    · intro hk
      rcases List.mem_append.mp hk with hk | hk
      · exact (hmem k).mp (List.mem_filter.mp hk).2
      · exact (List.mem_filter.mp hk).1
  refine ⟨⟨hnodup, hmem⟩, ?_, hreorder_mem⟩
  rw [reorder_modules_eq]
  apply List.Nodup.append
  · exact href.filter _
  · exact hnodup.filter _
  · intro a ha hb
    have hgb := (List.mem_filter.mp hb).2
    simp only [decide_eq_true_eq] at hgb
    exact hgb ha

/-- C4 witness -- -/
theorem C4_invariant_amended_witness :
    twoModuleReport.module_order.Nodup
    ∧ (reorder_modules ["M2", "M1"] twoModuleReport).Nodup :=
  ⟨(C4_invariant_amended twoModuleText twoModuleReport rfl (by decide)
      ["M2", "M1"] (by decide)).1.1,
   (C4_invariant_amended twoModuleText twoModuleReport rfl (by decide)
      ["M2", "M1"] (by decide)).2.1⟩

/-- C8 -- — Module-level reorder is idempotent on the reference itself:
for every parsed report, reordering it by its own `module_order` returns
`module_order` unchanged. -/
theorem C8_reorder_idempotent (content : List Char) (r : Report)
    (hok : parse content = .ok r) :
    reorder_modules r.module_order r = r.module_order := by
  have hmem := parse_ok_mem content r hok
  rw [reorder_modules_eq]
  have hall : ∀ k ∈ r.module_order, memModules r k = true := by
    intro k hk
    exact (hmem k).mpr hk
  have hfilter : r.module_order.filter (fun k => memModules r k) = r.module_order :=
    List.filter_eq_self.mpr hall
  rw [hfilter]
  have hnil : r.module_order.filter (fun k => decide (k ∉ r.module_order)) = [] := by
    apply List.filter_eq_nil_iff.mpr
    intro a ha
    simp only [decide_eq_true_eq, not_not]
    exact ha
  rw [hnil, List.append_nil]

/-- C8 witness -- -/
theorem C8_reorder_idempotent_witness :
    reorder_modules twoModuleReport.module_order twoModuleReport
      = twoModuleReport.module_order :=
  C8_reorder_idempotent twoModuleText twoModuleReport rfl
